import Mathlib

/-!
# Verification of the cpputil `Utils` module

Shallow embedding of the functions of `utils.h` / `utils.cpp` (namespace
`Utils`): byte-buffer append primitives, container helpers, string-format
error handling, the rate scheduler, and the angle-normalization helpers.

Machine integers are modelled as `Int` with the explicit reductions the C++
semantics performs (`>>` on a promoted signed value is arithmetic shift,
i.e. `Int.fdiv` by a power of two; storing into `uint8_t` reduces mod 256).
Doubles are modelled as real numbers, `float`/scale arithmetic as rationals;
`fmod` and C truncation-to-int casts are modelled exactly (truncation toward
zero).  A byte buffer is a total map `Nat → Nat` from positions to byte
values together with a caller-owned cursor.
-/

namespace Utils

/-- Pointwise buffer store: `upd b i v` is the buffer `b` with position `i`
overwritten by `v` (the effect of the C++ statement `buffer[i] = v`). -/
def upd (b : Nat → Nat) (i : Nat) (v : Nat) : Nat → Nat :=
  fun j => if j = i then v else b j

/-- Reduction performed by assigning a (promoted) signed value to `uint8_t`:
the value mod 256, as a byte. -/
def toByte (n : Int) : Nat := (n % 256).toNat

/-- Embedding of `Utils::BufAppendInt16` (utils.cpp): writes `number >> 8` at the cursor
and `number` at cursor+1 (each reduced to a byte), and advances the cursor
by 2.  Returns the new buffer and the new cursor. -/
def BufAppendInt16 (buffer : Nat → Nat) (number : Int) (index : Nat) :
    (Nat → Nat) × Nat :=
  (upd (upd buffer index (toByte (Int.fdiv number 256))) (index + 1) (toByte number),
   index + 2)

/-- Embedding of `Utils::BufAppendInt32` (utils.cpp): writes `number >> 24`, `number >> 16`,
`number >> 8`, `number` at cursor, cursor+1, cursor+2, cursor+3 (each reduced
to a byte), and advances the cursor by 4. -/
def BufAppendInt32 (buffer : Nat → Nat) (number : Int) (index : Nat) :
    (Nat → Nat) × Nat :=
  (upd (upd (upd (upd buffer
      index (toByte (Int.fdiv number 16777216)))
      (index + 1) (toByte (Int.fdiv number 65536)))
      (index + 2) (toByte (Int.fdiv number 256)))
      (index + 3) (toByte number),
   index + 4)

/-- Big-endian decode of two bytes as a signed 16-bit integer. -/
def decodeInt16 (hi lo : Nat) : Int :=
  if 32768 ≤ hi * 256 + lo then (hi * 256 + lo : Int) - 65536
  else (hi * 256 + lo : Int)

/-- Big-endian decode of four bytes as a signed 32-bit integer. -/
def decodeInt32 (b0 b1 b2 b3 : Nat) : Int :=
  if 2147483648 ≤ ((b0 * 256 + b1) * 256 + b2) * 256 + b3 then
    (((b0 * 256 + b1) * 256 + b2) * 256 + b3 : Int) - 4294967296
  else (((b0 * 256 + b1) * 256 + b2) * 256 + b3 : Int)

/-- A C cast of a rational value to an integer type: truncation toward
zero. -/
def ratTrunc (q : ℚ) : Int := if 0 ≤ q then ⌊q⌋ else ⌈q⌉

/-- Embedding of `Utils::BufAppendFloat16` (utils.cpp): multiplies the value by the
scale, truncates to a 16-bit signed integer (the C cast `(int16_t)`), and
delegates to `BufAppendInt16`.  `float` arithmetic is modelled exactly over
the rationals. -/
def BufAppendFloat16 (buffer : Nat → Nat) (number scale : ℚ) (index : Nat) :
    (Nat → Nat) × Nat :=
  BufAppendInt16 buffer (ratTrunc (number * scale)) index

/-- Embedding of `Utils::BufAppendFloat32` (utils.cpp): multiplies the value by the
scale, truncates to a 32-bit signed integer, and delegates to
`BufAppendInt32`. -/
def BufAppendFloat32 (buffer : Nat → Nat) (number scale : ℚ) (index : Nat) :
    (Nat → Nat) × Nat :=
  BufAppendInt32 buffer (ratTrunc (number * scale)) index

/-- Embedding of `Utils::Clamp` (utils.h): `std::min(std::max(val, lowerBound),
upperBound)`. -/
def Clamp {α : Type*} [LinearOrder α] (val upperBound lowerBound : α) : α :=
  min (max val lowerBound) upperBound

/-- Embedding of `Utils::VecContains` (utils.h): `std::find(v.begin(), v.end(), x) !=
v.end()`; the position returned by `std::find` (first index satisfying
`el == x`, or the length when absent) is `List.findIdx`. -/
def VecContains {α : Type*} [DecidableEq α] (v : List α) (x : α) : Bool :=
  decide (v.findIdx (fun y => decide (y = x)) < v.length)

/-- Embedding of `Utils::VecIndexOf` (utils.h): `pos = std::find(...) - v.begin()`; if
`pos >= v.size()` return `-1`, else return `pos`. -/
def VecIndexOf {α : Type*} [DecidableEq α] (v : List α) (x : α) : Int :=
  if v.length ≤ v.findIdx (fun y => decide (y = x)) then -1
  else (v.findIdx (fun y => decide (y = x)) : Int)

/-- Embedding of `Utils::_strfmt` (utils.h), with the system formatter abstracted by its
outcome: `ret` is the value returned by the sizing `snprintf` call (the
needed length, or a negative value when the format computation fails) and
`formatted` the text it renders.  The code computes `size = ret + 1` and
returns the sentinel when `size <= 0`, otherwise the rendered text. -/
def strfmtCore (ret : Int) (formatted : String) : String :=
  if ret + 1 ≤ 0 then "<StrFmt error>" else formatted

/-- Embedding of `Utils::StrFmt` (utils.h): converts string arguments to C strings and
delegates to `_strfmt`; the conversion does not affect the result string or
the error path. -/
def StrFmt (ret : Int) (formatted : String) : String := strfmtCore ret formatted

/-- Outcome of one `Utils::ScheduleRate` call: how many milliseconds were
passed to `sleep_for` (`none` when the call did not sleep), and the elapsed
seconds the call returns. -/
structure ScheduleRateResult where
  sleptMs : Option Int
  ret : ℚ
  deriving DecidableEq

/-- Embedding of `Utils::ScheduleRate` (utils.cpp), with the clock abstracted by its two
samples: `dt` is the elapsed milliseconds at the first clock reading and
`dt2` the elapsed milliseconds at the reading taken after the sleep.
`1000 / rate` is C `int` division (truncation toward zero, `Int.tdiv`); the
sleep argument `int(1000.0 / rate - dt - 2)` is `double` arithmetic
truncated toward zero. -/
def ScheduleRate (rate : Int) (dt : Int) (dt2 : Int) : ScheduleRateResult :=
  if dt < Int.tdiv 1000 rate then
    { sleptMs := some (ratTrunc ((1000 : ℚ) / (rate : ℚ) - (dt : ℚ) - 2)),
      ret := (dt2 : ℚ) / 1000 }
  else
    { sleptMs := none, ret := (dt : ℚ) / 1000 }

/-- C `trunc`-toward-zero of a real value, as performed by `fmod`. -/
noncomputable def ctrunc (r : ℝ) : ℤ := if 0 ≤ r then ⌊r⌋ else ⌈r⌉

/-- C `fmod(x, y)`: `x - y * trunc(x / y)`; the result has the sign of
`x` and magnitude below `|y|`. -/
noncomputable def cfmod (x y : ℝ) : ℝ := x - y * (ctrunc (x / y) : ℝ)

/-- Embedding of `Utils::NormalizeAnglePositive` (utils.cpp):
`fmod(fmod(angle, 2π) + 2π, 2π)`. -/
noncomputable def NormalizeAnglePositive (angle : ℝ) : ℝ :=
  cfmod (cfmod angle (2 * Real.pi) + 2 * Real.pi) (2 * Real.pi)

/-- Embedding of `Utils::NormalizeAngle` (utils.cpp): normalize positive, then subtract
`2π` if the result exceeds `π`. -/
noncomputable def NormalizeAngle (angle : ℝ) : ℝ :=
  if NormalizeAnglePositive angle > Real.pi then
    NormalizeAnglePositive angle - 2 * Real.pi
  else NormalizeAnglePositive angle

/-- Embedding of `Utils::ShortestAngularDistance` (utils.cpp): the normalized-positive
difference `result`, reflected with `result = -((2π) - result)` if it
exceeds `π`, then renormalized with `NormalizeAngle`. -/
noncomputable def ShortestAngularDistance (f t : ℝ) : ℝ :=
  NormalizeAngle
    (if NormalizeAnglePositive (NormalizeAnglePositive t - NormalizeAnglePositive f)
        > Real.pi then
      -((2 * Real.pi) -
        NormalizeAnglePositive (NormalizeAnglePositive t - NormalizeAnglePositive f))
    else NormalizeAnglePositive (NormalizeAnglePositive t - NormalizeAnglePositive f))

end Utils

namespace Utils

theorem upd_self (b : Nat → Nat) (i v : Nat) : upd b i v i = v := by
  simp [upd]

theorem upd_other (b : Nat → Nat) (i v j : Nat) (h : j ≠ i) : upd b i v j = b j := by
  simp [upd, h]

/-- The two bytes written by `BufAppendInt16`. -/
theorem append16_bytes (b : Nat → Nat) (n : Int) (i : Nat) :
    (BufAppendInt16 b n i).1 i = toByte (Int.fdiv n 256) ∧
    (BufAppendInt16 b n i).1 (i + 1) = toByte n := by
  unfold BufAppendInt16
  dsimp only
  refine ⟨?_, ?_⟩
  · rw [upd_other _ _ _ _ (by omega), upd_self]
  · rw [upd_self]

/-- The four bytes written by `BufAppendInt32`. -/
theorem append32_bytes (b : Nat → Nat) (n : Int) (i : Nat) :
    (BufAppendInt32 b n i).1 i = toByte (Int.fdiv n 16777216) ∧
    (BufAppendInt32 b n i).1 (i + 1) = toByte (Int.fdiv n 65536) ∧
    (BufAppendInt32 b n i).1 (i + 2) = toByte (Int.fdiv n 256) ∧
    (BufAppendInt32 b n i).1 (i + 3) = toByte n := by
  unfold BufAppendInt32
  dsimp only
  refine ⟨?_, ?_, ?_, ?_⟩
  · rw [upd_other _ _ _ _ (by omega), upd_other _ _ _ _ (by omega),
      upd_other _ _ _ _ (by omega), upd_self]
  · rw [upd_other _ _ _ _ (by omega), upd_other _ _ _ _ (by omega), upd_self]
  · rw [upd_other _ _ _ _ (by omega), upd_self]
  · rw [upd_self]

/-- Round-trip: big-endian decode of the two bytes of an in-range int16
recovers the value. -/
theorem decode16_toByte (n : Int) (h1 : -32768 ≤ n) (h2 : n < 32768) :
    decodeInt16 (toByte (Int.fdiv n 256)) (toByte n) = n := by
  rw [Int.fdiv_eq_ediv _ (by omega)]
  unfold decodeInt16 toByte
  split <;> omega

/-- Round-trip: big-endian decode of the four bytes of an in-range int32
recovers the value. -/
theorem decode32_toByte (n : Int) (h1 : -2147483648 ≤ n) (h2 : n < 2147483648) :
    decodeInt32 (toByte (Int.fdiv n 16777216)) (toByte (Int.fdiv n 65536))
      (toByte (Int.fdiv n 256)) (toByte n) = n := by
  rw [Int.fdiv_eq_ediv _ (by omega), Int.fdiv_eq_ediv _ (by omega),
    Int.fdiv_eq_ediv _ (by omega)]
  unfold decodeInt32 toByte
  split <;> omega

/-- C1: `BufAppendInt16` writes the two bytes of an int16 most-significant
byte first at the cursor and cursor+1 and advances the cursor by 2, so that
big-endian decoding recovers the value exactly; `BufAppendInt32` writes four
bytes most-significant first, advances the cursor by 4, with exact
round-trip; and starting from cursor 0, appending the int32 `0x12345678`
then the int16 `0x1A2B` yields the bytes `[0x12,0x34,0x56,0x78,0x1A,0x2B]`
with final cursor 6. -/
theorem bufAppend_bigEndian_roundtrip_and_scenario :
    (∀ (b : Nat → Nat) (n : Int) (i : Nat), -32768 ≤ n → n < 32768 →
      (BufAppendInt16 b n i).2 = i + 2 ∧
      decodeInt16 ((BufAppendInt16 b n i).1 i) ((BufAppendInt16 b n i).1 (i + 1)) = n) ∧
    (∀ (b : Nat → Nat) (n : Int) (i : Nat), -2147483648 ≤ n → n < 2147483648 →
      (BufAppendInt32 b n i).2 = i + 4 ∧
      decodeInt32 ((BufAppendInt32 b n i).1 i) ((BufAppendInt32 b n i).1 (i + 1))
        ((BufAppendInt32 b n i).1 (i + 2)) ((BufAppendInt32 b n i).1 (i + 3)) = n) ∧
    ((BufAppendInt16 (BufAppendInt32 (fun _ => 0) 0x12345678 0).1 0x1A2B
        (BufAppendInt32 (fun _ => 0) 0x12345678 0).2).1 0 = 0x12 ∧
     (BufAppendInt16 (BufAppendInt32 (fun _ => 0) 0x12345678 0).1 0x1A2B
        (BufAppendInt32 (fun _ => 0) 0x12345678 0).2).1 1 = 0x34 ∧
     (BufAppendInt16 (BufAppendInt32 (fun _ => 0) 0x12345678 0).1 0x1A2B
        (BufAppendInt32 (fun _ => 0) 0x12345678 0).2).1 2 = 0x56 ∧
     (BufAppendInt16 (BufAppendInt32 (fun _ => 0) 0x12345678 0).1 0x1A2B
        (BufAppendInt32 (fun _ => 0) 0x12345678 0).2).1 3 = 0x78 ∧
     (BufAppendInt16 (BufAppendInt32 (fun _ => 0) 0x12345678 0).1 0x1A2B
        (BufAppendInt32 (fun _ => 0) 0x12345678 0).2).1 4 = 0x1A ∧
     (BufAppendInt16 (BufAppendInt32 (fun _ => 0) 0x12345678 0).1 0x1A2B
        (BufAppendInt32 (fun _ => 0) 0x12345678 0).2).1 5 = 0x2B ∧
     (BufAppendInt16 (BufAppendInt32 (fun _ => 0) 0x12345678 0).1 0x1A2B
        (BufAppendInt32 (fun _ => 0) 0x12345678 0).2).2 = 6) := by
  refine ⟨?_, ?_, ?_⟩
  · intro b n i h1 h2
    refine ⟨rfl, ?_⟩
    rw [(append16_bytes b n i).1, (append16_bytes b n i).2]
    exact decode16_toByte n h1 h2
  · intro b n i h1 h2
    refine ⟨rfl, ?_⟩
    rw [(append32_bytes b n i).1, (append32_bytes b n i).2.1,
      (append32_bytes b n i).2.2.1, (append32_bytes b n i).2.2.2]
    exact decode32_toByte n h1 h2
  · exact ⟨by decide, by decide, by decide, by decide, by decide, by decide, rfl⟩

/-- Witness for C1 at concrete inputs. -/
theorem bufAppend_bigEndian_roundtrip_witness :
    decodeInt16 ((BufAppendInt16 (fun _ => 0) (-12345) 3).1 3)
      ((BufAppendInt16 (fun _ => 0) (-12345) 3).1 4) = -12345 ∧
    decodeInt32 ((BufAppendInt32 (fun _ => 0) (-123456789) 0).1 0)
      ((BufAppendInt32 (fun _ => 0) (-123456789) 0).1 1)
      ((BufAppendInt32 (fun _ => 0) (-123456789) 0).1 2)
      ((BufAppendInt32 (fun _ => 0) (-123456789) 0).1 3) = -123456789 :=
  ⟨(bufAppend_bigEndian_roundtrip_and_scenario.1 (fun _ => 0) (-12345) 3
      (by decide) (by decide)).2,
   (bufAppend_bigEndian_roundtrip_and_scenario.2.1 (fun _ => 0) (-123456789) 0
      (by decide) (by decide)).2⟩

/-- C10: the append primitives modify only the bytes inside the written
window (`i`, `i+1` for int16; `i` through `i+3` for int32); every other
byte of the buffer is unchanged, and the only other caller state touched is
the cursor. -/
theorem bufAppend_frame :
    ∀ (b : Nat → Nat) (n : Int) (i j : Nat),
      (j ≠ i → j ≠ i + 1 → (BufAppendInt16 b n i).1 j = b j) ∧
      (j ≠ i → j ≠ i + 1 → j ≠ i + 2 → j ≠ i + 3 →
        (BufAppendInt32 b n i).1 j = b j) := by
  intro b n i j
  constructor
  · intro h0 h1
    unfold BufAppendInt16
    dsimp only
    rw [upd_other _ _ _ _ h1, upd_other _ _ _ _ h0]
  · intro h0 h1 h2 h3
    unfold BufAppendInt32
    dsimp only
    rw [upd_other _ _ _ _ h3, upd_other _ _ _ _ h2,
      upd_other _ _ _ _ h1, upd_other _ _ _ _ h0]

/-- Witness for C10 at concrete inputs. -/
theorem bufAppend_frame_witness :
    (BufAppendInt16 (fun j => j + 40) 777 2).1 9 = 49 ∧
    (BufAppendInt32 (fun j => j + 40) 777 2).1 9 = 49 :=
  ⟨(bufAppend_frame (fun j => j + 40) 777 2 9).1 (by decide) (by decide),
   (bufAppend_frame (fun j => j + 40) 777 2 9).2 (by decide) (by decide)
     (by decide) (by decide)⟩

/-- C6: with `lo ≤ hi`, `Clamp(v, hi, lo)` returns `lo` if `v < lo`, `hi`
if `v > hi`, and `v` otherwise; in all cases the result lies in
`[lo, hi]`. -/
theorem clamp_spec {α : Type*} [LinearOrder α] (v lo hi : α) (h : lo ≤ hi) :
    (v < lo → Clamp v hi lo = lo) ∧
    (hi < v → Clamp v hi lo = hi) ∧
    (lo ≤ v → v ≤ hi → Clamp v hi lo = v) ∧
    lo ≤ Clamp v hi lo ∧ Clamp v hi lo ≤ hi := by
  unfold Clamp
  refine ⟨?_, ?_, ?_, ?_, min_le_right _ _⟩
  · intro hv
    rw [max_eq_right hv.le, min_eq_left h]
  · intro hv
    rw [max_eq_left (h.trans hv.le), min_eq_right hv.le]
  · intro h1 h2
    rw [max_eq_left h1, min_eq_left h2]
  · exact le_min (le_max_right _ _) h

/-- Witness for C6 at concrete inputs. -/
theorem clamp_spec_witness :
    Clamp (-4 : Int) 10 0 = 0 ∧ Clamp (25 : Int) 10 0 = 10 ∧
    Clamp (7 : Int) 10 0 = 7 :=
  ⟨(clamp_spec (-4 : Int) 0 10 (by decide)).1 (by decide),
   (clamp_spec (25 : Int) 0 10 (by decide)).2.1 (by decide),
   (clamp_spec (7 : Int) 0 10 (by decide)).2.2.1 (by decide) (by decide)⟩

/-- C9: when the system formatter reports an error (negative return),
`StrFmt` returns the literal sentinel `"<StrFmt error>"` instead of
propagating the failure; on success it returns the formatted string. -/
theorem strFmt_error_sentinel (ret : Int) (formatted : String) :
    (ret < 0 → StrFmt ret formatted = "<StrFmt error>") ∧
    (0 ≤ ret → StrFmt ret formatted = formatted) := by
  unfold StrFmt strfmtCore
  constructor
  · intro h
    rw [if_pos (by omega)]
  · intro h
    rw [if_neg (by omega)]

/-- Witness for C9 at concrete inputs. -/
theorem strFmt_error_sentinel_witness :
    StrFmt (-1) "x%" = "<StrFmt error>" ∧ StrFmt 5 "hello" = "hello" :=
  ⟨(strFmt_error_sentinel (-1) "x%").1 (by decide),
   (strFmt_error_sentinel 5 "hello").2 (by decide)⟩

theorem vecFindIdx_lt_iff_mem {α : Type*} [DecidableEq α] (v : List α) (x : α) :
    v.findIdx (fun y => decide (y = x)) < v.length ↔ x ∈ v := by
  rw [List.findIdx_lt_length]
  constructor
  · rintro ⟨y, hy, hpy⟩
    simp only [decide_eq_true_eq] at hpy
    exact hpy ▸ hy
  · intro hx
    exact ⟨x, hx, by simp⟩

/-- C7: `VecContains v x` is true iff `VecIndexOf v x ≠ -1`; `VecContains`
is true iff `x` appears in `v`; `VecIndexOf` returns the first index of `x`
in `v` (the indexed element equals `x` and every earlier element differs
from `x`), or `-1` when `x` is absent. -/
theorem vec_helpers_spec {α : Type*} [DecidableEq α] (v : List α) (x : α) :
    (VecContains v x = true ↔ VecIndexOf v x ≠ -1) ∧
    (VecContains v x = true ↔ x ∈ v) ∧
    (x ∈ v → ∃ n : Nat, VecIndexOf v x = (n : Int) ∧
      ∃ hn : n < v.length, v.get ⟨n, hn⟩ = x ∧
        ∀ (m : Nat) (hm : m < v.length), m < n → v.get ⟨m, hm⟩ ≠ x) ∧
    (x ∉ v → VecIndexOf v x = -1) := by
  have hk := vecFindIdx_lt_iff_mem v x
  have hc : VecContains v x = true ↔ x ∈ v := by
    unfold VecContains
    rw [decide_eq_true_iff]
    exact hk
  have hno : x ∉ v → VecIndexOf v x = -1 := by
    intro hx
    unfold VecIndexOf
    rw [if_pos (not_lt.mp (fun h => hx (hk.mp h)))]
  have hyes : x ∈ v →
      VecIndexOf v x = ((v.findIdx (fun y => decide (y = x)) : Nat) : Int) := by
    intro hx
    unfold VecIndexOf
    rw [if_neg (not_le.mpr (hk.mpr hx))]
  refine ⟨?_, hc, ?_, hno⟩
  · constructor
    · intro h hEq
      rw [hyes (hc.mp h)] at hEq
      omega
    · intro h
      rw [hc]
      by_contra hx
      exact h (hno hx)
  · intro hx
    have hw : v.findIdx (fun y => decide (y = x)) < v.length := hk.mpr hx
    refine ⟨v.findIdx (fun y => decide (y = x)), hyes hx, hw, ?_, ?_⟩
    · have := @List.findIdx_getElem _ (fun y => decide (y = x)) v hw
      simpa using this
    · intro m hm hlt hcontra
      have := @List.not_of_lt_findIdx _ (fun y => decide (y = x)) v m hlt
      simp only [List.get_eq_getElem] at hcontra
      rw [hcontra] at this
      simp at this

/-- Witness for C7 at concrete inputs. -/
theorem vec_helpers_spec_witness :
    VecIndexOf ([5, 7, 7] : List Int) 4 = -1 ∧
    (VecContains ([5, 7, 7] : List Int) 7 = true ↔
      (7 : Int) ∈ ([5, 7, 7] : List Int)) ∧
    (∃ n : Nat, VecIndexOf ([5, 7, 7] : List Int) 7 = (n : Int) ∧
      ∃ hn : n < ([5, 7, 7] : List Int).length,
        ([5, 7, 7] : List Int).get ⟨n, hn⟩ = 7 ∧
          ∀ (m : Nat) (hm : m < ([5, 7, 7] : List Int).length), m < n →
            ([5, 7, 7] : List Int).get ⟨m, hm⟩ ≠ 7) :=
  ⟨(vec_helpers_spec ([5, 7, 7] : List Int) 4).2.2.2 (by decide),
   (vec_helpers_spec ([5, 7, 7] : List Int) 7).2.1,
   (vec_helpers_spec ([5, 7, 7] : List Int) 7).2.2.1 (by decide)⟩

/-- Truncation toward zero moves a rational by strictly less than 1. -/
theorem ratTrunc_close (q : ℚ) : |(ratTrunc q : ℚ) - q| < 1 := by
  unfold ratTrunc
  split
  · rw [abs_lt]
    constructor
    · linarith [Int.lt_floor_add_one q]
    · linarith [Int.floor_le q]
  · rw [abs_lt]
    constructor
    · linarith [Int.le_ceil q]
    · linarith [Int.ceil_lt_add_one q]

/-- C8: `BufAppendFloat16` stores the 16-bit integer
`round_toward_zero(value * scale)` big-endian by delegating to
`BufAppendInt16` (and `BufAppendFloat32` the 32-bit one via
`BufAppendInt32`): when that integer is in range, decoding the written
bytes gives exactly `round_toward_zero(value * scale)`, and dividing by the
scale recovers the value within one unit of the fixed-point precision
(`1 / |scale|`). -/
theorem bufAppendFloat_fixedPoint (b : Nat → Nat) (number scale : ℚ) (i : Nat)
    (hs : scale ≠ 0) :
    BufAppendFloat16 b number scale i
      = BufAppendInt16 b (ratTrunc (number * scale)) i ∧
    BufAppendFloat32 b number scale i
      = BufAppendInt32 b (ratTrunc (number * scale)) i ∧
    (-32768 ≤ ratTrunc (number * scale) → ratTrunc (number * scale) < 32768 →
      decodeInt16 ((BufAppendFloat16 b number scale i).1 i)
        ((BufAppendFloat16 b number scale i).1 (i + 1))
        = ratTrunc (number * scale)) ∧
    (-2147483648 ≤ ratTrunc (number * scale) →
      ratTrunc (number * scale) < 2147483648 →
      decodeInt32 ((BufAppendFloat32 b number scale i).1 i)
        ((BufAppendFloat32 b number scale i).1 (i + 1))
        ((BufAppendFloat32 b number scale i).1 (i + 2))
        ((BufAppendFloat32 b number scale i).1 (i + 3))
        = ratTrunc (number * scale)) ∧
    |(ratTrunc (number * scale) : ℚ) / scale - number| < 1 / |scale| := by
  refine ⟨rfl, rfl, ?_, ?_, ?_⟩
  · intro h1 h2
    unfold BufAppendFloat16
    rw [(append16_bytes b _ i).1, (append16_bytes b _ i).2]
    exact decode16_toByte _ h1 h2
  · intro h1 h2
    unfold BufAppendFloat32
    rw [(append32_bytes b _ i).1, (append32_bytes b _ i).2.1,
      (append32_bytes b _ i).2.2.1, (append32_bytes b _ i).2.2.2]
    exact decode32_toByte _ h1 h2
  · have hclose := ratTrunc_close (number * scale)
    have hpos : 0 < |scale| := abs_pos.mpr hs
    have hrw : (ratTrunc (number * scale) : ℚ) / scale - number
        = ((ratTrunc (number * scale) : ℚ) - number * scale) / scale := by
      rw [sub_div, mul_div_cancel_right₀ _ hs]
    rw [hrw, abs_div]
    gcongr

/-- Witness for C8 at concrete inputs. -/
theorem bufAppendFloat_fixedPoint_witness :
    decodeInt16 ((BufAppendFloat16 (fun _ => 0) (3 / 2) 100 0).1 0)
      ((BufAppendFloat16 (fun _ => 0) (3 / 2) 100 0).1 1)
      = ratTrunc ((3 / 2) * 100) ∧
    decodeInt32 ((BufAppendFloat32 (fun _ => 0) (3 / 2) 100 0).1 0)
      ((BufAppendFloat32 (fun _ => 0) (3 / 2) 100 0).1 1)
      ((BufAppendFloat32 (fun _ => 0) (3 / 2) 100 0).1 2)
      ((BufAppendFloat32 (fun _ => 0) (3 / 2) 100 0).1 3)
      = ratTrunc ((3 / 2) * 100) ∧
    |(ratTrunc ((3 / 2) * 100) : ℚ) / 100 - 3 / 2| < 1 / |(100 : ℚ)| :=
  ⟨(bufAppendFloat_fixedPoint (fun _ => 0) (3 / 2) 100 0 (by decide)).2.2.1
      (by norm_num [ratTrunc]) (by norm_num [ratTrunc]),
   (bufAppendFloat_fixedPoint (fun _ => 0) (3 / 2) 100 0 (by decide)).2.2.2.1
      (by norm_num [ratTrunc]) (by norm_num [ratTrunc]),
   (bufAppendFloat_fixedPoint (fun _ => 0) (3 / 2) 100 0 (by decide)).2.2.2.2⟩

/-- C5: the late path (elapsed at least the period `1000 / rate`
milliseconds computed by the code) returns the elapsed seconds immediately
without sleeping; the on-time path sleeps for the remaining budget minus
the fixed 2 ms fudge factor and returns the recomputed elapsed seconds
(`dt2`, the second clock sample). -/
theorem scheduleRate_paths (rate dt dt2 : Int) :
    (Int.tdiv 1000 rate ≤ dt →
      ScheduleRate rate dt dt2 = { sleptMs := none, ret := (dt : ℚ) / 1000 }) ∧
    (dt < Int.tdiv 1000 rate →
      ScheduleRate rate dt dt2 =
        { sleptMs := some (ratTrunc ((1000 : ℚ) / (rate : ℚ) - (dt : ℚ) - 2)),
          ret := (dt2 : ℚ) / 1000 }) := by
  unfold ScheduleRate
  constructor
  · intro h
    rw [if_neg (by omega)]
  · intro h
    rw [if_pos h]

/-- Witness for C5 at concrete inputs: at 10 Hz, a 200 ms first sample hits
the late path; a 50 ms first sample sleeps `100 - 50 - 2 = 48` ms and
returns the second sample. -/
theorem scheduleRate_paths_witness :
    ScheduleRate 10 200 201 = { sleptMs := none, ret := 1 / 5 } ∧
    ScheduleRate 10 50 101 = { sleptMs := some 48, ret := 101 / 1000 } := by
  refine ⟨?_, ?_⟩
  · rw [(scheduleRate_paths 10 200 201).1 (by decide)]
    norm_num
  · rw [(scheduleRate_paths 10 50 101).2 (by decide)]
    norm_num [ratTrunc]

theorem cfmod_sub_int (x y : ℝ) : ∃ k : ℤ, cfmod x y = x - y * k :=
  ⟨ctrunc (x / y), rfl⟩

theorem cfmod_nonneg_bounds {x y : ℝ} (hy : 0 < y) (hx : 0 ≤ x) :
    0 ≤ cfmod x y ∧ cfmod x y < y := by
  have hq : 0 ≤ x / y := div_nonneg hx hy.le
  have h1 : ((⌊x / y⌋ : ℤ) : ℝ) ≤ x / y := Int.floor_le _
  have h2 : x / y < (⌊x / y⌋ : ℤ) + 1 := Int.lt_floor_add_one _
  have hxy : y * (x / y) = x := by
    rw [mul_comm, div_mul_cancel₀ _ hy.ne']
  have e1 : y * ((⌊x / y⌋ : ℤ) : ℝ) ≤ x := by
    have := mul_le_mul_of_nonneg_left h1 hy.le
    linarith
  have e2 : x < y * ((⌊x / y⌋ : ℤ) : ℝ) + y := by
    have h3 := mul_lt_mul_of_pos_left h2 hy
    have h4 : y * ((((⌊x / y⌋ : ℤ) : ℝ)) + 1) = y * ((⌊x / y⌋ : ℤ) : ℝ) + y := by
      ring
    linarith
  unfold cfmod ctrunc
  rw [if_pos hq]
  exact ⟨by linarith, by linarith⟩

theorem cfmod_neg_bounds {x y : ℝ} (hy : 0 < y) (hx : x < 0) :
    -y < cfmod x y ∧ cfmod x y ≤ 0 := by
  have hq : ¬ (0 ≤ x / y) := not_le.mpr (div_neg_of_neg_of_pos hx hy)
  have h1 : x / y ≤ ((⌈x / y⌉ : ℤ) : ℝ) := Int.le_ceil _
  have h2 : ((⌈x / y⌉ : ℤ) : ℝ) < x / y + 1 := Int.ceil_lt_add_one _
  have hxy : y * (x / y) = x := by
    rw [mul_comm, div_mul_cancel₀ _ hy.ne']
  have e1 : x ≤ y * ((⌈x / y⌉ : ℤ) : ℝ) := by
    have := mul_le_mul_of_nonneg_left h1 hy.le
    linarith
  have e2 : y * ((⌈x / y⌉ : ℤ) : ℝ) < x + y := by
    have h3 := mul_lt_mul_of_pos_left h2 hy
    have h4 : y * (x / y + 1) = y * (x / y) + y := by ring
    linarith
  unfold cfmod ctrunc
  rw [if_neg hq]
  exact ⟨by linarith, by linarith⟩

/-- Two values of `[0, T)` that differ by an integer multiple of `T` are
equal. -/
theorem mod_unique {T x y : ℝ} (hT : 0 < T) (hx0 : 0 ≤ x) (hx1 : x < T)
    (hy0 : 0 ≤ y) (hy1 : y < T) (k : ℤ) (h : x - y = T * k) : x = y := by
  have h1 : T * (k : ℝ) < T * 1 := by linarith
  have h2 : T * (-1 : ℝ) < T * k := by linarith
  have hk1 : (k : ℝ) < 1 := (mul_lt_mul_left hT).mp h1
  have hk2 : (-1 : ℝ) < (k : ℝ) := (mul_lt_mul_left hT).mp h2
  have hk : k = 0 := by
    have a1 : (-1 : ℤ) < k := by exact_mod_cast hk2
    have a2 : k < 1 := by exact_mod_cast hk1
    omega
  rw [hk] at h
  push_cast at h
  linarith

theorem normPos_bounds (a : ℝ) :
    0 ≤ NormalizeAnglePositive a ∧ NormalizeAnglePositive a < 2 * Real.pi := by
  have hT : 0 < 2 * Real.pi := Real.two_pi_pos
  unfold NormalizeAnglePositive
  rcases le_or_lt 0 a with ha | ha
  · have h1 := cfmod_nonneg_bounds hT ha
    exact cfmod_nonneg_bounds hT (by linarith [h1.1])
  · have h1 := cfmod_neg_bounds hT ha
    exact cfmod_nonneg_bounds hT (by linarith [h1.1])

theorem normPos_sub_int (a : ℝ) :
    ∃ k : ℤ, NormalizeAnglePositive a = a - 2 * Real.pi * k := by
  obtain ⟨k1, h1⟩ := cfmod_sub_int a (2 * Real.pi)
  obtain ⟨k2, h2⟩ := cfmod_sub_int (cfmod a (2 * Real.pi) + 2 * Real.pi) (2 * Real.pi)
  refine ⟨k1 - 1 + k2, ?_⟩
  unfold NormalizeAnglePositive
  rw [h2, h1]
  push_cast
  ring

theorem normPos_eq_self {a : ℝ} (h0 : 0 ≤ a) (h1 : a < 2 * Real.pi) :
    NormalizeAnglePositive a = a := by
  obtain ⟨k, hk⟩ := normPos_sub_int a
  have hb := normPos_bounds a
  refine mod_unique Real.two_pi_pos hb.1 hb.2 h0 h1 (-k) ?_
  push_cast
  linarith

theorem normPos_congr {a b : ℝ} (k : ℤ) (h : a - b = 2 * Real.pi * k) :
    NormalizeAnglePositive a = NormalizeAnglePositive b := by
  obtain ⟨k1, h1⟩ := normPos_sub_int a
  obtain ⟨k2, h2⟩ := normPos_sub_int b
  have hba := normPos_bounds a
  have hbb := normPos_bounds b
  refine mod_unique Real.two_pi_pos hba.1 hba.2 hbb.1 hbb.2 (k - k1 + k2) ?_
  push_cast
  linarith

theorem normAngle_bounds (a : ℝ) :
    -Real.pi < NormalizeAngle a ∧ NormalizeAngle a ≤ Real.pi := by
  have hb := normPos_bounds a
  have hpi := Real.pi_pos
  unfold NormalizeAngle
  split
  · constructor <;> linarith
  · rename_i h
    rw [not_lt] at h
    constructor <;> linarith

theorem normAngle_sub_int (a : ℝ) :
    ∃ k : ℤ, NormalizeAngle a = a - 2 * Real.pi * k := by
  obtain ⟨k, hk⟩ := normPos_sub_int a
  unfold NormalizeAngle
  split
  · exact ⟨k + 1, by push_cast; linarith⟩
  · exact ⟨k, hk⟩

theorem normAngle_congr {a b : ℝ} (k : ℤ) (h : a - b = 2 * Real.pi * k) :
    NormalizeAngle a = NormalizeAngle b := by
  unfold NormalizeAngle
  rw [normPos_congr k h]

/-- C3: for every real angle `a`, `NormalizeAnglePositive a` lies in
`[0, 2π)` and `NormalizeAngle a` lies in `(-π, π]`.  (`double` angles are
modelled as real numbers, `fmod` exactly.) -/
theorem normalize_angle_ranges (a : ℝ) :
    (0 ≤ NormalizeAnglePositive a ∧ NormalizeAnglePositive a < 2 * Real.pi) ∧
    (-Real.pi < NormalizeAngle a ∧ NormalizeAngle a ≤ Real.pi) :=
  ⟨normPos_bounds a, normAngle_bounds a⟩

theorem normAngle_zero : NormalizeAngle 0 = 0 := by
  have hz : NormalizeAnglePositive 0 = 0 := normPos_eq_self le_rfl Real.two_pi_pos
  unfold NormalizeAngle
  rw [hz, if_neg (by linarith [Real.pi_pos] : ¬ (0 : ℝ) > Real.pi)]

/-- C4: `ShortestAngularDistance a a = 0`; the magnitude of
`ShortestAngularDistance` never exceeds `π`; and adding the distance to
`from` gives an angle equivalent to `to`:
`NormalizeAngle (from + ShortestAngularDistance from to) = NormalizeAngle to`
(exact equality in the real-number model). -/
theorem shortestAngularDistance_props (a f t : ℝ) :
    ShortestAngularDistance a a = 0 ∧
    |ShortestAngularDistance f t| ≤ Real.pi ∧
    NormalizeAngle (f + ShortestAngularDistance f t) = NormalizeAngle t := by
  refine ⟨?_, ?_, ?_⟩
  · have hz : NormalizeAnglePositive 0 = 0 := normPos_eq_self le_rfl Real.two_pi_pos
    unfold ShortestAngularDistance
    rw [sub_self, hz, if_neg (by linarith [Real.pi_pos] : ¬ (0 : ℝ) > Real.pi)]
    exact normAngle_zero
  · unfold ShortestAngularDistance
    exact abs_le.mpr ⟨(normAngle_bounds _).1.le, (normAngle_bounds _).2⟩
  · obtain ⟨k1, h1⟩ := normPos_sub_int t
    obtain ⟨k2, h2⟩ := normPos_sub_int f
    obtain ⟨k3, h3⟩ :=
      normPos_sub_int (NormalizeAnglePositive t - NormalizeAnglePositive f)
    unfold ShortestAngularDistance
    split
    · obtain ⟨k4, h4⟩ := normAngle_sub_int (-((2 * Real.pi) -
        NormalizeAnglePositive (NormalizeAnglePositive t - NormalizeAnglePositive f)))
      refine normAngle_congr (-(k1 - k2 + k3 + k4 + 1)) ?_
      rw [h4]
      push_cast
      linarith
    · obtain ⟨k4, h4⟩ := normAngle_sub_int
        (NormalizeAnglePositive (NormalizeAnglePositive t - NormalizeAnglePositive f))
      refine normAngle_congr (-(k1 - k2 + k3 + k4)) ?_
      rw [h4]
      push_cast
      linarith

theorem sad_three_negThree : ShortestAngularDistance 3 (-3) = 2 * Real.pi - 6 := by
  have hpi3 : (3 : ℝ) < Real.pi := Real.pi_gt_three
  have hpi4 : Real.pi < 3.15 := Real.pi_lt_d2
  have h1 : NormalizeAnglePositive 3 = 3 :=
    normPos_eq_self (by norm_num) (by linarith)
  have h2 : NormalizeAnglePositive (-3) = 2 * Real.pi - 3 := by
    have hc : NormalizeAnglePositive (-3 : ℝ)
        = NormalizeAnglePositive (2 * Real.pi - 3) :=
      normPos_congr (-1) (by push_cast; ring)
    rw [hc, normPos_eq_self (by linarith) (by linarith)]
  unfold ShortestAngularDistance
  rw [h1, h2, show (2 * Real.pi - 3) - 3 = 2 * Real.pi - 6 by ring,
    normPos_eq_self (by linarith) (by linarith),
    if_neg (by linarith : ¬ (2 * Real.pi - 6 > Real.pi))]
  unfold NormalizeAngle
  rw [normPos_eq_self (by linarith) (by linarith),
    if_neg (by linarith : ¬ (2 * Real.pi - 6 > Real.pi))]

/-- C2 counterexample: `ShortestAngularDistance(3, -3)` equals `2π - 6`,
which is positive (≈ +0.283), hence not approximately `-0.283`: it differs
from `-0.283` by more than `1/2`. -/
theorem sad_scenario_not_neg :
    ShortestAngularDistance 3 (-3) = 2 * Real.pi - 6 ∧
    0 < ShortestAngularDistance 3 (-3) ∧
    1 / 2 < |ShortestAngularDistance 3 (-3) - (-0.283)| := by
  have hgt : (3.141592 : ℝ) < Real.pi := Real.pi_gt_d6
  refine ⟨sad_three_negThree, ?_, ?_⟩
  · rw [sad_three_negThree]
    linarith [Real.pi_gt_three]
  · have hd : ShortestAngularDistance 3 (-3) - (-0.283) = 2 * Real.pi - 5.717 := by
      rw [sad_three_negThree]
      norm_num
      ring
    rw [hd, abs_of_pos (by linarith)]
    linarith

/-- C2 amended: `ShortestAngularDistance(3, -3)` is approximately `+0.283`
radians — exactly `2π - 6` (the shorter path is positive-going through the
`π` boundary), within `0.001` of `0.283`. -/
theorem sad_scenario_amended :
    ShortestAngularDistance 3 (-3) = 2 * Real.pi - 6 ∧
    |ShortestAngularDistance 3 (-3) - 0.283| < 1 / 1000 := by
  have hgt : (3.141592 : ℝ) < Real.pi := Real.pi_gt_d6
  have hlt : Real.pi < 3.141593 := Real.pi_lt_d6
  refine ⟨sad_three_negThree, ?_⟩
  rw [sad_three_negThree, abs_lt]
  constructor
  · norm_num
    linarith
  · norm_num
    linarith

end Utils
